import Mathlib

/-!
# Verification of the `keeper-todo` scheduling ledger

A shallow embedding of the core of `src/keeper-todo/src/data.rs`:
the schedule store (`Keeper`, `Schedule`, `Task`), its mutating
operations (`add`, `change`, `mark`, `order`), the temporal
classification shared by the two renderers, the text renderer
(`KeeperDisplay::fmt_day` and its `Display` instance) and the font-scale
computation of the image renderer (`KeeperRenderer::new`).

Modelling decisions, stated once here:

* `chrono::NaiveDate` is represented by its day number (an `Int`);
  `iter_days` is `(· + 1)`.  An instant of the local timeline is an
  `Int` counting microseconds; `Local.from_local_datetime` is the
  evident injection (the program is specified against the local clock
  only, with no DST model, and `NaiveDate::and_hms_opt` supplies the
  range check on hour/minute/second).
* `BTreeMap` is an association list ordered by key; `entry`, `get`,
  `get_mut`, `remove` become `mapInsert`, `mapGet`, `mapRemove`.
* Rust panics (`Vec::remove` out of bounds, `.unwrap()`, `.expect(..)`)
  are modelled by `Option`/`Except` error results, so that reachability
  of a panic is visible as a `none`/`.error` value.
* `f32` arithmetic in the font-scale computation is modelled by exact
  rationals.
* `chrono`'s `date.format("%d %b %Y")` header is external formatting
  code; it is modelled as a decimal rendering of the day number.  All
  claims depend only on the header being one nonempty newline-free
  line, which is true of any `%d %b %Y` rendering.
-/

namespace KeeperTodo

/-- A calendar date, as a day number (`chrono::NaiveDate`). -/
abbrev NaiveDate := Int

/-- An instant on the local timeline, in microseconds. -/
abbrev Instant := Int

/-- Decimal digit characters (the digits of Rust's `{}` formatting of
integers). -/
def digitChar (n : Nat) : Char :=
  match n with
  | 0 => '0' | 1 => '1' | 2 => '2' | 3 => '3' | 4 => '4'
  | 5 => '5' | 6 => '6' | 7 => '7' | 8 => '8' | _ => '9'

/-- Decimal digit list, fuelled so that it is structural recursion (the
fuel `n + 1` always suffices, since a number has at most as many digits
as its own value plus one). -/
def natDigitsAux : Nat → Nat → List Char
  | 0, _ => []
  | fuel + 1, n =>
    if n < 10 then [digitChar n]
    else natDigitsAux fuel (n / 10) ++ [digitChar (n % 10)]

/-- Decimal digit list of a natural number, most significant first. -/
def natDigits (n : Nat) : List Char := natDigitsAux (n + 1) n

/-- Decimal rendering of a natural number (Rust `{}` on an unsigned
integer). -/
def natRepr (n : Nat) : String := ⟨natDigits n⟩

/-- Decimal rendering of an integer. -/
def intRepr (i : Int) : String :=
  if i < 0 then "-" ++ natRepr i.natAbs else natRepr i.natAbs

/-- The date header `date.format("%d %b %Y")`, modelled as the decimal
rendering of the day number (see the header comment: the claims depend
only on this being a single nonempty newline-free line). -/
def formatDate (d : NaiveDate) : String := intRepr d

/-- Concatenation of a list of strings in order (the sequence of
`write!` calls of a rendering loop). -/
def strConcat : List String → String
  | [] => ""
  | s :: rest => s ++ strConcat rest

/-- `Task` from `data.rs`: a completion flag and a description. -/
structure Task where
  completed : Bool
  desc : String
deriving DecidableEq

/-- `Task::new`: a new task is incomplete. -/
def Task.new (desc : String) : Task := ⟨false, desc⟩

/-- `Task::mark_complete`. -/
def Task.markComplete (t : Task) : Task := { t with completed := true }

/-- `Schedule`: map from hour of day to the ordered task list of that
hour-slot (`BTreeMap<usize, Vec<Task>>` as an ordered association
list). -/
structure Schedule where
  timeslots : List (Nat × List Task)
deriving DecidableEq

/-- `Keeper`: map from date to `Schedule`. -/
structure Keeper where
  days : List (NaiveDate × Schedule)
deriving DecidableEq

section MapOps

variable {κ : Type} [LinearOrder κ] {β : Type}

/-- `BTreeMap::get`: first binding of the key, if any. -/
def mapGet (m : List (κ × β)) (k : κ) : Option β :=
  match m with
  | [] => none
  | (k', v) :: rest => if k = k' then some v else mapGet rest k

/-- `BTreeMap::insert` (also `entry(k).or_insert(v)` followed by
overwriting): insert in key order, replacing an existing binding in
place. -/
def mapInsert (m : List (κ × β)) (k : κ) (v : β) : List (κ × β) :=
  match m with
  | [] => [(k, v)]
  | (k', v') :: rest =>
    if k < k' then (k, v) :: (k', v') :: rest
    else if k = k' then (k, v) :: rest
    else (k', v') :: mapInsert rest k v

/-- `BTreeMap::remove`: drop the bindings of the key. -/
def mapRemove (m : List (κ × β)) (k : κ) : List (κ × β) :=
  match m with
  | [] => []
  | (k', v') :: rest =>
    if k' = k then mapRemove rest k else (k', v') :: mapRemove rest k

end MapOps

/-- Lookup of a date's `Schedule` (`self.days.get(&date)`). -/
def dayGet (k : Keeper) (date : NaiveDate) : Option Schedule :=
  mapGet k.days date

/-- Lookup of an hour-slot's task list. -/
def slotGet (k : Keeper) (date : NaiveDate) (hour : Nat) : Option (List Task) :=
  (dayGet k date).bind fun sched => mapGet sched.timeslots hour

/-- Lookup of a single task. -/
def taskGet (k : Keeper) (date : NaiveDate) (hour index : Nat) : Option Task :=
  (slotGet k date hour).bind fun tasks => tasks[index]?

/-- `Keeper::add` (`data.rs:70-80`): append a new incomplete task to the
(possibly newly created) slot at `(date, hour)`.  The trailing
`self.render(..)` call (wallpaper regeneration, an external
collaborator) is outside the store and not part of this model. -/
def Keeper.add (k : Keeper) (date : NaiveDate) (desc : String) (hour : Nat) : Keeper :=
  let day := (dayGet k date).getD ⟨[]⟩
  let tasks := (mapGet day.timeslots hour).getD []
  { days := mapInsert k.days date ⟨mapInsert day.timeslots hour (tasks ++ [Task.new desc])⟩ }

/-- Failure modes of `Keeper::change`.  The first three model the
`fatal!` exits (process exit before any mutation is persisted); the
last models the `Vec::remove` panic that the `index > tasks.len()`
bounds check fails to rule out when `index == tasks.len()`. -/
inductive ChangeError where
  | absentDay
  | absentSlot
  | indexTooLarge
  | vecRemovePanic
deriving DecidableEq

/-- `Keeper::change` (`data.rs:82-109`): move the task at
`(date, old_hour, index)` to the end of `(date, new_hour)`'s slot,
removing the source slot's key if it becomes empty.  As with `add`,
the trailing `self.render(..)` call is external and not modelled. -/
def Keeper.change (k : Keeper) (date : NaiveDate) (old_hour index new_hour : Nat) :
    Except ChangeError Keeper :=
  match dayGet k date with
  | none => .error .absentDay
  | some day =>
    match mapGet day.timeslots old_hour with
    | none => .error .absentSlot
    | some tasks =>
      if index > tasks.length then .error .indexTooLarge
      else
        match tasks[index]? with
        | none => .error .vecRemovePanic
        | some task =>
          let tasks' := tasks.eraseIdx index
          let slots1 :=
            if tasks'.isEmpty then mapRemove day.timeslots old_hour
            else mapInsert day.timeslots old_hour tasks'
          let newTasks := (mapGet slots1 new_hour).getD [] ++ [task]
          .ok { days := mapInsert k.days date ⟨mapInsert slots1 new_hour newTasks⟩ }

/-- `Keeper::mark` (`data.rs:111-124`): if a task exists at the exact
`(date, hour, index)`, set it completed; otherwise do nothing. -/
def Keeper.mark (k : Keeper) (date : NaiveDate) (hour index : Nat) : Keeper :=
  match dayGet k date with
  | none => k
  | some day =>
    match mapGet day.timeslots hour with
    | none => k
    | some tasks =>
      match tasks[index]? with
      | none => k
      | some t =>
        { days := mapInsert k.days date
            ⟨mapInsert day.timeslots hour (tasks.set index t.markComplete)⟩ }

/-- The sorting key relation of `slot.sort_by_key(|task| task.completed)`:
`false` sorts before `true`. -/
def taskLE (a b : Task) : Bool := !a.completed || b.completed

/-- One slot's pass of `Keeper::order`: Rust's stable
`sort_by_key(|task| task.completed)`, modelled by the stable
`List.mergeSort` under the same key order. -/
def orderSlot (l : List Task) : List Task := l.mergeSort taskLE

/-- `Keeper::order` on one day's schedule. -/
def orderSchedule (s : Schedule) : Schedule :=
  ⟨s.timeslots.map fun q => (q.1, orderSlot q.2)⟩

/-- `Keeper::order` (`data.rs:62-68`), the normalization pass: stable
sort of every slot of every day with incomplete tasks first. -/
def Keeper.order (k : Keeper) : Keeper :=
  ⟨k.days.map fun p => (p.1, orderSchedule p.2)⟩

/-! ## Temporal classification and the text renderer -/

/-- `NaiveDate::and_hms_opt`: the second of the local day, provided the
hour/minute/second are in range. -/
def andHms (d : NaiveDate) (h m s : Nat) : Option Int :=
  if h ≤ 23 ∧ m ≤ 59 ∧ s ≤ 59 then
    some (d * 86400 + ((h : Int) * 3600 + (m : Int) * 60 + (s : Int)))
  else none

/-- `Local.from_local_datetime(..)` composed with `and_hms_opt`: the
instant (in microseconds) of a wall-clock time of a date. -/
def localMicros (d : NaiveDate) (h m s : Nat) : Option Instant :=
  (andHms d h m s).map (· * 1000000)

/-- The instant ending the hour-slot `(d, h)`: `h:59:59` local time on
`d`, in microseconds.  This is the specification-side reference point
for past-due classification. -/
def slotEndSpec (d : NaiveDate) (h : Nat) : Instant :=
  (d * 86400 + ((h : Int) * 3600 + 3599)) * 1000000

/-- The past-due test of `KeeperDisplay::fmt_day` (`data.rs:220-223`):
`Local.from_local_datetime(&date.and_hms_opt(time, 59, 59).unwrap()).unwrap() < Local::now()`.
`none` models the `.unwrap()` panic on an out-of-range hour. -/
def fmtDayPastDue (date : NaiveDate) (time : Nat) (now : Instant) : Option Bool :=
  (localMicros date time 59 59).map fun e => decide (e < now)

/-- The past-due test of `KeeperRenderer::render_day` (`data.rs:353-356`),
textually the same computation as in `fmt_day`. -/
def renderDayPastDue (day : NaiveDate) (time : Nat) (now : Instant) : Option Bool :=
  (localMicros day time 59 59).map fun e => decide (e < now)

/-- ANSI color escapes from `keeper-util/src/color.rs`. -/
def GREEN : String := "\x1b[0;32m"

/-- See `GREEN`. -/
def RED : String := "\x1b[0;31m"

/-- See `GREEN`. -/
def BLUE : String := "\x1b[0;34m"

/-- See `GREEN`. -/
def RESET : String := "\x1b[0m"

/-- `ColorStyle` from `data.rs`. -/
inductive ColorStyle where
  | color
  | noColor
deriving DecidableEq

/-- The four styling strings `(green, red, blue, reset)` of `fmt_day`,
all emptied when styling is suppressed (`data.rs:198-207`). -/
def styleColors (cs : ColorStyle) : String × String × String × String :=
  match cs with
  | .color => (GREEN, RED, BLUE, RESET)
  | .noColor => ("", "", "", "")

/-- One task's rendering ` {color}({reset}desc{color}){reset}` with the
four-way completed/past-due color table (`data.rs:233-241`). -/
def taskFmt (green red reset : String) (pastDue : Bool) (t : Task) : String :=
  let color :=
    match t.completed, pastDue with
    | true, true => green
    | true, false => green
    | false, true => red
    | false, false => reset
  " " ++ color ++ "(" ++ reset ++ t.desc ++ color ++ ")" ++ reset

/-- One hour-slot's line of `fmt_day` (`data.rs:216-243`): the bracketed
hour tag colored by the all-done/past-due table, each task appended,
then the newline of the final `writeln!`. -/
def slotLine (green red blue reset : String) (date : NaiveDate) (now : Instant)
    (time : Nat) (tasklist : List Task) : Option String :=
  (fmtDayPastDue date time now).map fun pastDue =>
    let allDone := tasklist.all fun t => t.completed
    let bracketColor :=
      match allDone, pastDue with
      | true, true => green
      | true, false => green
      | false, true => red
      | false, false => blue
    bracketColor ++ "[" ++ natRepr time ++ "]" ++ reset
      ++ strConcat (tasklist.map (taskFmt green red reset pastDue)) ++ "\n"

/-- The slot loop of `fmt_day`, over the schedule's bindings in order. -/
def slotsFmt (green red blue reset : String) (date : NaiveDate) (now : Instant) :
    List (Nat × List Task) → Option String
  | [] => some ""
  | (time, tasklist) :: rest =>
    (slotLine green red blue reset date now time tasklist).bind fun s =>
      (slotsFmt green red blue reset date now rest).map fun r => s ++ r

/-- `KeeperDisplay::fmt_day` (`data.rs:197-246`): the date header line,
then `Empty` if the keeper has no schedule for the date, else one line
per hour-slot. -/
def fmtDay (k : Keeper) (cs : ColorStyle) (now : Instant) (date : NaiveDate) :
    Option String :=
  let (green, red, blue, reset) := styleColors cs
  match dayGet k date with
  | none => some (formatDate date ++ "\n" ++ "Empty\n")
  | some sched =>
    (slotsFmt green red blue reset date now sched.timeslots).map fun body =>
      formatDate date ++ "\n" ++ body

/-- `ShowSet` from `cli.rs`: a day-count selection starting today, or a
single date. -/
inductive ShowSet where
  | Days (n : Nat)
  | Date (d : NaiveDate)

/-- The tail of the `ShowSet::Days` loop of `impl Display for
KeeperDisplay` (`data.rs:260-263`): for each further date, a blank line
(`writeln!(f)`) followed by that day's rendering. -/
def fmtRest (k : Keeper) (cs : ColorStyle) (now : Instant) :
    NaiveDate → Nat → Option String
  | _, 0 => some ""
  | d, n + 1 =>
    (fmtDay k cs now d).bind fun s =>
      (fmtRest k cs now (d + 1) (n : Nat)).map fun r => "\n" ++ s ++ r

/-- `impl Display for KeeperDisplay` (`data.rs:249-271`): a `Days n`
selection renders the `n` dates starting `today` with a blank line
between consecutive days (empty output for `n = 0`); a `Date` selection
renders that single day. -/
def display (k : Keeper) (sel : ShowSet) (cs : ColorStyle)
    (today : NaiveDate) (now : Instant) : Option String :=
  match sel with
  | .Days 0 => some ""
  | .Days (n + 1) =>
    (fmtDay k cs now today).bind fun first =>
      (fmtRest k cs now (today + 1) n).map fun r => first ++ r
  | .Date d => fmtDay k cs now d

/-! ## The image renderer's font-scale computation -/

/-- Rust `str::lines` on the character list: segments split at `'\n'`,
the final line ending optional.  (The `\r\n` case never arises in the
rendered text, which contains no carriage returns.) -/
def linesCore : List Char → List (List Char)
  | [] => []
  | c :: cs =>
    if c = '\n' then [] :: linesCore cs
    else
      match linesCore cs with
      | [] => [[c]]
      | l :: ls => (c :: l) :: ls

/-- Rust `str::lines` on a string. -/
def rustLines (s : String) : List String :=
  (linesCore s.data).map fun l => ⟨l⟩

/-- `SCREEN_HEIGHT` (`data.rs:20`). -/
def SCREEN_HEIGHT : Nat := 956

/-- `SCREEN_WIDTH` (`data.rs:21`). -/
def SCREEN_WIDTH : Nat := 1470

/-- `Y_START` (`data.rs:22`). -/
def Y_START : Nat := 35

/-- `Y_PAD` (`data.rs:23`). -/
def Y_PAD : Nat := 20

/-- `X_PAD` (`data.rs:24`). -/
def X_PAD : Nat := 35

/-- `CHAR_HEIGHT_TO_WIDTH` (`data.rs:25`), the character aspect-ratio
constant `1.9`. -/
def charHeightToWidth : ℚ := 19 / 10

/-- `rusttype::Scale`: the two axes of the font scale. -/
structure RustScale where
  x : ℚ
  y : ℚ
deriving DecidableEq

/-- The font-scale computation of `KeeperRenderer::new`
(`data.rs:284-316`): render the selection plain, measure the line count
and the longest line's byte length (`.max().expect(..)`, modelled as
`none` on an empty rendering — that `expect` is a reachable panic),
divide the width by the aspect ratio, and take the minimum of the two
per-axis ratios as the uniform scale. -/
def rendererScale (k : Keeper) (sel : ShowSet) (today : NaiveDate) (now : Instant) :
    Option RustScale :=
  (display k sel .noColor today now).bind fun displayed =>
    let ls := rustLines displayed
    ((ls.map fun l => l.utf8ByteSize).max?).map fun maxLen =>
      let height : ℚ := ls.length
      let width : ℚ := (maxLen : ℚ) / charHeightToWidth
      let effectiveHeight : ℚ := (SCREEN_HEIGHT : ℚ) - 2 * (Y_PAD : ℚ) - (Y_START : ℚ)
      let effectiveWidth : ℚ := (SCREEN_WIDTH : ℚ) - 2 * (X_PAD : ℚ) - 20
      let size := min (effectiveHeight / height) (effectiveWidth / width)
      { x := size, y := size }

/-! ## Auxiliary specification-side definitions -/

/-- The hour-domain invariant maintained at the CLI boundary: every
hour key stored in the keeper is in `[0, 23]`. -/
def KeeperWF (k : Keeper) : Prop :=
  ∀ p ∈ k.days, ∀ q ∈ p.2.timeslots, q.1 ≤ 23

instance : DecidablePred KeeperWF := fun k =>
  inferInstanceAs (Decidable (∀ p ∈ k.days, ∀ q ∈ p.2.timeslots, q.1 ≤ 23))

/-- The text of `fmt_day` as a total function (meaningful whenever
`fmtDay` succeeds, which `KeeperWF` guarantees). -/
def fmtDayT (k : Keeper) (cs : ColorStyle) (now : Instant) (date : NaiveDate) :
    String :=
  (fmtDay k cs now date).getD ""

/-- Concatenation of a list of strings with a separator between
consecutive elements. -/
def joinSep (sep : String) : List String → String
  | [] => ""
  | b :: bs => b ++ strConcat (bs.map fun x => sep ++ x)

/-! ## Concrete fixtures for witnesses -/

/-- A keeper with a single incomplete task at date `0`, hour `9`,
index `0`. -/
def kOne : Keeper := ⟨[(0, ⟨[(9, [⟨false, "buy milk"⟩])]⟩)]⟩

/-- The empty keeper (`Keeper::default()`). -/
def kEmpty : Keeper := ⟨[]⟩

/-- A keeper with a slot holding an interleaving of complete and
incomplete tasks, for the C6 witness. -/
def kMixed : Keeper :=
  ⟨[(0, ⟨[(9, [⟨true, "a"⟩, ⟨false, "b"⟩, ⟨true, "c"⟩, ⟨false, "d"⟩])]⟩)]⟩

/-! ## C1: temporal classification -/

/-- C1: for every date `d`, hour `h ≤ 23` and instant `now`, the
past-due test computed by the text renderer (`fmt_day`) and by the
image renderer (`render_day`) both hold iff the instant `d` at
`h:59:59` local time is strictly before `now`; the instants
`h:59:58`, `h:59:59`, and every instant strictly after `h:59:59`
(in particular `h:59:59.000001`) are distinguished correctly. -/
theorem C1_past_due_classification (d : NaiveDate) (h : Nat) (now : Instant)
    (hh : h ≤ 23) :
    fmtDayPastDue d h now = some (decide (slotEndSpec d h < now)) ∧
    renderDayPastDue d h now = fmtDayPastDue d h now ∧
    localMicros d h 59 58 = some (slotEndSpec d h - 1000000) ∧
    fmtDayPastDue d h (slotEndSpec d h - 1000000) = some false ∧
    fmtDayPastDue d h (slotEndSpec d h) = some false ∧
    fmtDayPastDue d h (slotEndSpec d h + 1) = some true ∧
    (∀ later : Instant, slotEndSpec d h < later →
      fmtDayPastDue d h later = some true) := by
  have key : ∀ n : Instant,
      fmtDayPastDue d h n = some (decide (slotEndSpec d h < n)) := by
    intro n
    have hl : localMicros d h 59 59 = some (slotEndSpec d h) := by
      simp only [localMicros, andHms, slotEndSpec, hh]
      norm_num
      ring
    simp [fmtDayPastDue, hl]
  refine ⟨key now, rfl, ?_, ?_, ?_, ?_, ?_⟩
  · simp only [localMicros, andHms, slotEndSpec, hh]
    norm_num
    ring
  · rw [key]; simp
  · rw [key]; simp
  · rw [key]; simp
  · intro later hl
    rw [key]; simpa using hl

/-- Witness for C1 at `d = 0`, `h = 9`, `now = 0`. -/
theorem C1_witness :
    (9 : Nat) ≤ 23 ∧
    fmtDayPastDue 0 9 0 = some (decide (slotEndSpec 0 9 < 0)) :=
  ⟨by decide, (C1_past_due_classification 0 9 0 (by decide)).1⟩

/-! ## C2: error behavior of `change` -/

/-- C2 (code bug evaluation): on a keeper with exactly one task at
`(0, 9, 0)`, `change` reports the graceful `absent day`, `absent slot`
and `index out of range` errors for a missing date, a missing slot and
`index = 2 > len = 1`, but at `index = 1 = len` the `index >
tasks.len()` guard passes and the code reaches the `Vec::remove`
panic instead of an error, contradicting the claim that every failure
is a reported error with no panic. -/
theorem C2_change_bounds_check_panics :
    Keeper.change kOne 1 9 0 10 = .error .absentDay ∧
    Keeper.change kOne 0 8 0 10 = .error .absentSlot ∧
    Keeper.change kOne 0 9 2 10 = .error .indexTooLarge ∧
    Keeper.change kOne 0 9 1 10 = .error .vecRemovePanic := by
  refine ⟨?_, ?_, ?_, ?_⟩ <;> rfl

/-! ## Association-list map lemmas -/

section MapLemmas

variable {κ : Type} [LinearOrder κ] {β γ : Type}

theorem mapGet_insert_self (m : List (κ × β)) (k : κ) (v : β) :
    mapGet (mapInsert m k v) k = some v := by
  induction m with
  | nil => simp [mapInsert, mapGet]
  | cons p rest ih =>
    obtain ⟨k', v'⟩ := p
    by_cases h1 : k < k'
    · simp [mapInsert, h1, mapGet]
    · by_cases h2 : k = k'
      · simp [mapInsert, h1, h2, mapGet]
      · simp [mapInsert, h1, h2, mapGet, ih]

theorem mapGet_insert_ne (m : List (κ × β)) (k k' : κ) (v : β) (h : k' ≠ k) :
    mapGet (mapInsert m k v) k' = mapGet m k' := by
  induction m with
  | nil => simp [mapInsert, mapGet, h]
  | cons p rest ih =>
    obtain ⟨k'', v''⟩ := p
    by_cases h1 : k < k''
    · simp [mapInsert, h1, mapGet, h]
    · by_cases h2 : k = k''
      · subst h2
        simp [mapInsert, h1, mapGet, h]
      · by_cases h3 : k' = k''
        · simp [mapInsert, h1, h2, mapGet, h3]
        · simp [mapInsert, h1, h2, mapGet, h3, ih]

theorem mapGet_remove_self (m : List (κ × β)) (k : κ) :
    mapGet (mapRemove m k) k = none := by
  induction m with
  | nil => simp [mapRemove, mapGet]
  | cons p rest ih =>
    obtain ⟨k', v'⟩ := p
    by_cases h1 : k' = k
    · simp [mapRemove, h1, ih]
    · simp [mapRemove, h1, mapGet, Ne.symm h1, ih]

theorem mapGet_remove_ne (m : List (κ × β)) (k k' : κ) (h : k' ≠ k) :
    mapGet (mapRemove m k) k' = mapGet m k' := by
  induction m with
  | nil => simp [mapRemove]
  | cons p rest ih =>
    obtain ⟨k'', v''⟩ := p
    by_cases h1 : k'' = k
    · subst h1
      simp [mapRemove, mapGet, h, ih]
    · by_cases h2 : k' = k''
      · simp [mapRemove, h1, mapGet, h2]
      · simp [mapRemove, h1, mapGet, h2, ih]

theorem mapGet_map (m : List (κ × β)) (f : β → γ) (k : κ) :
    mapGet (m.map fun p => (p.1, f p.2)) k = (mapGet m k).map f := by
  induction m with
  | nil => simp [mapGet]
  | cons p rest ih =>
    obtain ⟨k', v'⟩ := p
    by_cases h : k = k'
    · simp [mapGet, h]
    · simp [mapGet, h, ih]

/-- Any binding of `mapInsert m k v` is the new binding or one of `m`. -/
theorem mem_mapInsert (m : List (κ × β)) (k : κ) (v : β) (p : κ × β)
    (hp : p ∈ mapInsert m k v) : p = (k, v) ∨ p ∈ m := by
  induction m with
  | nil => simpa [mapInsert] using hp
  | cons q rest ih =>
    obtain ⟨k', v'⟩ := q
    by_cases h1 : k < k'
    · simp only [mapInsert, if_pos h1, List.mem_cons] at hp
      rcases hp with hp | hp | hp
      · exact Or.inl hp
      · exact Or.inr (by simp [hp])
      · exact Or.inr (by simp [hp])
    · by_cases h2 : k = k'
      · simp only [mapInsert, if_neg h1, if_pos h2, List.mem_cons] at hp
        rcases hp with hp | hp
        · exact Or.inl hp
        · exact Or.inr (by simp [hp])
      · simp only [mapInsert, if_neg h1, if_neg h2, List.mem_cons] at hp
        rcases hp with hp | hp
        · exact Or.inr (by simp [hp])
        · rcases ih hp with hp | hp
          · exact Or.inl hp
          · exact Or.inr (by simp [hp])

end MapLemmas

/-! ## C4: `mark` semantics -/

/-- C4: if a task exists at exactly `(date, hour, index)`, `mark` sets
its completed flag (keeping its description); otherwise `mark` returns
the keeper entirely unchanged and reports nothing. -/
theorem C4_mark_best_effort (k : Keeper) (d : NaiveDate) (h i : Nat) :
    (taskGet k d h i = none → Keeper.mark k d h i = k) ∧
    (∀ t : Task, taskGet k d h i = some t →
      taskGet (Keeper.mark k d h i) d h i = some ⟨true, t.desc⟩) := by
  constructor
  · intro hnone
    cases hday : dayGet k d with
    | none => simp [Keeper.mark, hday]
    | some day =>
      cases hslot : mapGet day.timeslots h with
      | none => simp [Keeper.mark, hday, hslot]
      | some tasks =>
        cases htask : tasks[i]? with
        | none => simp [Keeper.mark, hday, hslot, htask]
        | some t =>
          exfalso
          simp [taskGet, slotGet, hday, hslot, htask] at hnone
  · intro t ht
    obtain ⟨tasks, hslot, htask⟩ := Option.bind_eq_some.mp ht
    obtain ⟨day, hday, hslot⟩ := Option.bind_eq_some.mp hslot
    have hi : i < tasks.length := by
      by_contra hge
      push_neg at hge
      rw [List.getElem?_eq_none hge] at htask
      cases htask
    simp only [Keeper.mark, hday, hslot, htask]
    simp only [taskGet, slotGet, dayGet, mapGet_insert_self, Option.bind_some,
      Option.some_bind]
    rw [List.getElem?_set_self hi]
    rfl

/-- Witness for C4 on `kOne`: marking `(0, 9, 0)` completes the task,
and marking the absent `(1, 9, 0)` is an exact no-op. -/
theorem C4_witness :
    taskGet (Keeper.mark kOne 0 9 0) 0 9 0 = some ⟨true, "buy milk"⟩ ∧
    Keeper.mark kOne 1 9 0 = kOne :=
  ⟨(C4_mark_best_effort kOne 0 9 0).2 ⟨false, "buy milk"⟩ (by rfl),
   (C4_mark_best_effort kOne 1 9 0).1 (by rfl)⟩

/-! ## C10: frame locality of the mutating operations -/

/-- C10: every mutating operation is frame-local to its date argument:
`add`, `mark` and `change` leave the schedule of every other date
untouched; `add` leaves every other hour-slot of its date untouched;
and `mark` leaves every task other than the addressed one untouched. -/
theorem C10_frame_locality (k : Keeper) (d : NaiveDate) :
    (∀ desc hour d', d' ≠ d →
      dayGet (Keeper.add k d desc hour) d' = dayGet k d') ∧
    (∀ desc hour h', h' ≠ hour →
      slotGet (Keeper.add k d desc hour) d h' = slotGet k d h') ∧
    (∀ hour i d', d' ≠ d →
      dayGet (Keeper.mark k d hour i) d' = dayGet k d') ∧
    (∀ hour i d' h' i', (d', h', i') ≠ (d, hour, i) →
      taskGet (Keeper.mark k d hour i) d' h' i' = taskGet k d' h' i') ∧
    (∀ oh i nh k', Keeper.change k d oh i nh = .ok k' →
      ∀ d', d' ≠ d → dayGet k' d' = dayGet k d') := by
  refine ⟨?_, ?_, ?_, ?_, ?_⟩
  · intro desc hour d' hd
    simp only [Keeper.add, dayGet]
    exact mapGet_insert_ne _ _ _ _ hd
  · intro desc hour h' hh
    simp only [Keeper.add, slotGet, dayGet, mapGet_insert_self, Option.some_bind]
    rw [mapGet_insert_ne _ _ _ _ hh]
    cases hday : mapGet k.days d with
    | none => simp [hday, mapGet]
    | some day => simp [hday]
  · intro hour i d' hd
    cases hday : dayGet k d with
    | none => simp [Keeper.mark, hday]
    | some day =>
      cases hslot : mapGet day.timeslots hour with
      | none => simp [Keeper.mark, hday, hslot]
      | some tasks =>
        cases htask : tasks[i]? with
        | none => simp [Keeper.mark, hday, hslot, htask]
        | some t =>
          have hday' : mapGet k.days d = some day := hday
          simp only [Keeper.mark, dayGet, hday', hslot, htask]
          exact mapGet_insert_ne _ _ _ _ hd
  · intro hour i d' h' i' hne
    cases hday : dayGet k d with
    | none => simp [Keeper.mark, hday]
    | some day =>
      cases hslot : mapGet day.timeslots hour with
      | none => simp [Keeper.mark, hday, hslot]
      | some tasks =>
        cases htask : tasks[i]? with
        | none => simp [Keeper.mark, hday, hslot, htask]
        | some t =>
          simp only [Keeper.mark, hday, hslot, htask]
          by_cases hd : d' = d
          · subst hd
            by_cases hh : h' = hour
            · subst hh
              have hii : i' ≠ i := by
                intro hcon
                exact hne (by simp [hcon])
              have hday' : mapGet k.days d' = some day := hday
              simp only [taskGet, slotGet, dayGet, mapGet_insert_self,
                Option.some_bind, hday', hslot]
              rw [List.getElem?_set_ne (Ne.symm hii)]
            · simp only [taskGet, slotGet, dayGet, mapGet_insert_self,
                Option.some_bind]
              rw [mapGet_insert_ne _ _ _ _ hh]
              have hday' : mapGet k.days d' = some day := hday
              simp [hday']
          · simp only [taskGet, slotGet, dayGet]
            rw [mapGet_insert_ne _ _ _ _ hd]
  · intro oh i nh k' hok d' hd
    unfold Keeper.change at hok
    cases hday : dayGet k d with
    | none => simp [hday] at hok
    | some day =>
      cases hslot : mapGet day.timeslots oh with
      | none => simp [hday, hslot] at hok
      | some tasks =>
        by_cases hlen : i > tasks.length
        · simp [hday, hslot, hlen] at hok
        · cases htask : tasks[i]? with
          | none => simp [hday, hslot, hlen, htask] at hok
          | some task =>
            simp only [hday, hslot, if_neg hlen, htask] at hok
            cases hok
            simp only [dayGet]
            exact mapGet_insert_ne _ _ _ _ hd

/-! ## Character-list helpers -/

theorem getLast?_append_right (l u : List Char) (hu : u ≠ []) :
    (l ++ u).getLast? = u.getLast? := by
  rw [List.getLast?_append]
  cases hgu : u.getLast? with
  | none => exact absurd (List.getLast?_eq_none_iff.mp hgu) hu
  | some a => rfl

theorem head?_append_left (l u : List Char) (hl : l ≠ []) :
    (l ++ u).head? = l.head? := by
  rw [List.head?_append]
  cases hgl : l.head? with
  | none => exact absurd (List.head?_eq_none_iff.mp hgl) hl
  | some a => rfl

theorem digitChar_ne_newline (m : Nat) : digitChar m ≠ '\n' := by
  unfold digitChar
  split <;> decide

theorem natDigitsAux_no_newline (fuel : Nat) : ∀ n, '\n' ∉ natDigitsAux fuel n := by
  induction fuel with
  | zero => intro n; simp [natDigitsAux]
  | succ fuel ih =>
    intro n
    by_cases h : n < 10
    · simp only [natDigitsAux, if_pos h, List.mem_singleton]
      exact fun hc => digitChar_ne_newline n hc.symm
    · simp only [natDigitsAux, if_neg h, List.mem_append, List.mem_singleton]
      rintro (hc | hc)
      · exact ih (n / 10) hc
      · exact digitChar_ne_newline (n % 10) hc.symm

theorem natDigits_no_newline (n : Nat) : '\n' ∉ natDigits n :=
  natDigitsAux_no_newline (n + 1) n

theorem natDigits_ne_nil (n : Nat) : natDigits n ≠ [] := by
  unfold natDigits natDigitsAux
  by_cases h : n < 10 <;> simp [h]

theorem formatDate_data_ne_nil (d : NaiveDate) : (formatDate d).data ≠ [] := by
  unfold formatDate intRepr natRepr
  by_cases h : d < 0
  · simp only [if_pos h, String.data_append]
    intro hc
    rcases List.append_eq_nil.mp hc with ⟨hc1, -⟩
    cases hc1
  · simpa [if_neg h] using natDigits_ne_nil d.natAbs

theorem formatDate_no_newline (d : NaiveDate) : '\n' ∉ (formatDate d).data := by
  unfold formatDate intRepr natRepr
  by_cases h : d < 0
  · simp only [if_pos h, String.data_append, List.mem_append]
    rintro (hc | hc)
    · simp at hc
    · exact natDigits_no_newline d.natAbs hc
  · simpa [if_neg h] using natDigits_no_newline d.natAbs

/-! ## Well-formedness propagation -/

theorem mapGet_mem {κ : Type} [LinearOrder κ] {β : Type} {m : List (κ × β)}
    {k : κ} {v : β} (h : mapGet m k = some v) : (k, v) ∈ m := by
  induction m with
  | nil => cases h
  | cons p rest ih =>
    obtain ⟨k', v'⟩ := p
    by_cases hk : k = k'
    · simp only [mapGet, if_pos hk] at h
      cases h
      simp [hk]
    · simp only [mapGet, if_neg hk] at h
      exact List.mem_cons_of_mem _ (ih h)

theorem slotLine_isSome (green red blue reset : String) (d : NaiveDate)
    (now : Instant) (time : Nat) (tl : List Task) (ht : time ≤ 23) :
    (slotLine green red blue reset d now time tl).isSome := by
  simp [slotLine, fmtDayPastDue, localMicros, andHms, ht]

theorem slotsFmt_isSome (green red blue reset : String) (d : NaiveDate)
    (now : Instant) (slots : List (Nat × List Task))
    (hts : ∀ q ∈ slots, q.1 ≤ 23) :
    (slotsFmt green red blue reset d now slots).isSome := by
  induction slots with
  | nil => simp [slotsFmt]
  | cons q rest ih =>
    obtain ⟨time, tl⟩ := q
    have h1 := slotLine_isSome green red blue reset d now time tl
      (hts (time, tl) (by simp))
    obtain ⟨line, hline⟩ := Option.isSome_iff_exists.mp h1
    have h2 := ih fun q hq => hts q (List.mem_cons_of_mem _ hq)
    obtain ⟨rest', hrest⟩ := Option.isSome_iff_exists.mp h2
    simp [slotsFmt, hline, hrest]

theorem fmtDay_isSome (k : Keeper) (cs : ColorStyle) (now : Instant)
    (d : NaiveDate) (hwf : KeeperWF k) : (fmtDay k cs now d).isSome := by
  obtain ⟨green, red, blue, reset⟩ := styleColors cs
  cases hday : dayGet k d with
  | none => simp [fmtDay, hday]
  | some day =>
    have hts : ∀ q ∈ day.timeslots, q.1 ≤ 23 := hwf (d, day) (mapGet_mem hday)
    have := slotsFmt_isSome (styleColors cs).1 (styleColors cs).2.1
      (styleColors cs).2.2.1 (styleColors cs).2.2.2 d now day.timeslots hts
    obtain ⟨body, hbody⟩ := Option.isSome_iff_exists.mp this
    simp [fmtDay, hday, hbody]

theorem fmtDay_eq_some (k : Keeper) (cs : ColorStyle) (now : Instant)
    (d : NaiveDate) (hwf : KeeperWF k) :
    fmtDay k cs now d = some (fmtDayT k cs now d) := by
  have h := fmtDay_isSome k cs now d hwf
  cases ho : fmtDay k cs now d with
  | none => rw [ho] at h; cases h
  | some s => simp [fmtDayT, ho]

theorem fmtRest_isSome (k : Keeper) (cs : ColorStyle) (now : Instant)
    (hwf : KeeperWF k) : ∀ (n : Nat) (d : NaiveDate),
    (fmtRest k cs now d n).isSome := by
  intro n
  induction n with
  | zero => intro d; simp [fmtRest]
  | succ n ih =>
    intro d
    obtain ⟨r, hr⟩ := Option.isSome_iff_exists.mp (ih (d + 1))
    simp [fmtRest, fmtDay_eq_some k cs now d hwf, hr]

theorem display_isSome (k : Keeper) (sel : ShowSet) (cs : ColorStyle)
    (today : NaiveDate) (now : Instant) (hwf : KeeperWF k) :
    (display k sel cs today now).isSome := by
  cases sel with
  | Date d => exact fmtDay_isSome k cs now d hwf
  | Days n =>
    cases n with
    | zero => simp [display]
    | succ n =>
      obtain ⟨r, hr⟩ :=
        Option.isSome_iff_exists.mp (fmtRest_isSome k cs now hwf n (today + 1))
      simp [display, fmtDay_eq_some k cs now today hwf, hr]

/-! ## Nonemptiness of positive renderings -/

theorem fmtDay_data_ne_nil (k : Keeper) (cs : ColorStyle) (now : Instant)
    (d : NaiveDate) (s : String) (hs : fmtDay k cs now d = some s) :
    s.data ≠ [] := by
  obtain ⟨green, red, blue, reset⟩ := styleColors cs
  cases hday : dayGet k d with
  | none =>
    simp only [fmtDay, hday] at hs
    cases hs
    simp only [String.data_append]
    intro hc
    rcases List.append_eq_nil.mp hc with ⟨hc1, -⟩
    rcases List.append_eq_nil.mp hc1 with ⟨hc2, -⟩
    exact formatDate_data_ne_nil d hc2
  | some day =>
    simp only [fmtDay, hday, Option.map_eq_some'] at hs
    obtain ⟨body, -, hbody⟩ := hs
    subst hbody
    simp only [String.data_append]
    intro hc
    rcases List.append_eq_nil.mp hc with ⟨hc1, -⟩
    rcases List.append_eq_nil.mp hc1 with ⟨hc2, -⟩
    exact formatDate_data_ne_nil d hc2

theorem linesCore_ne_nil (cs : List Char) (h : cs ≠ []) : linesCore cs ≠ [] := by
  cases cs with
  | nil => exact absurd rfl h
  | cons c rest =>
    by_cases hc : c = '\n'
    · simp [linesCore, hc]
    · simp only [linesCore, if_neg hc]
      cases linesCore rest <;> simp

theorem rustLines_ne_nil (s : String) (hs : s.data ≠ []) : rustLines s ≠ [] := by
  simp only [rustLines, ne_eq, List.map_eq_nil_iff]
  exact linesCore_ne_nil s.data hs

theorem rendererScale_isSome_of_display (k : Keeper) (sel : ShowSet)
    (today : NaiveDate) (now : Instant) (s : String)
    (hd : display k sel .noColor today now = some s) (hs : s.data ≠ []) :
    (rendererScale k sel today now).isSome := by
  cases hmax : ((rustLines s).map fun l => l.utf8ByteSize).max? with
  | none =>
    exfalso
    have := List.max?_eq_none_iff.mp hmax
    rw [List.map_eq_nil_iff] at this
    exact rustLines_ne_nil s hs this
  | some maxLen =>
    simp [rendererScale, hd, hmax]

/-! ## C3: totality of add, text rendering, and layout (amended) -/

/-- C3 counterexample: the claim includes a 0-day selection among the
well-formed inputs of the text-to-raster layout, but on a 0-day range
the rendered text is empty and the layout's
`.lines().map(..).max().expect("there is at least one non-empty line")`
panics (modelled as `none`) — even on the empty keeper. -/
theorem C3_counterexample :
    rendererScale kEmpty (.Days 0) 0 0 = none := rfl

/-- C3 (amended): on a keeper whose hour keys are all in `[0, 23]`,
`add` with an in-range hour never fails (and preserves the hour
invariant), text rendering is total for every selection (including the
0-day range), and the raster layout is total for every single-date
selection and every day-count selection of at least one day.  (The
layout on a 0-day selection panics — see the counterexample.) -/
theorem C3_totality (k : Keeper) (hwf : KeeperWF k) :
    (∀ (d : NaiveDate) (desc : String) (h : Nat), h ≤ 23 →
      KeeperWF (Keeper.add k d desc h)) ∧
    (∀ (sel : ShowSet) (cs : ColorStyle) (today : NaiveDate) (now : Instant),
      (display k sel cs today now).isSome) ∧
    (∀ (d today : NaiveDate) (now : Instant),
      (rendererScale k (.Date d) today now).isSome) ∧
    (∀ (n : Nat) (today : NaiveDate) (now : Instant),
      (rendererScale k (.Days (n + 1)) today now).isSome) := by
  refine ⟨?_, ?_, ?_, ?_⟩
  · intro d desc h hh p hp
    rcases mem_mapInsert _ _ _ _ hp with hp | hp
    · subst hp
      intro q hq
      rcases mem_mapInsert _ _ _ _ hq with hq | hq
      · subst hq; exact hh
      · cases hday : dayGet k d with
        | none =>
          rw [show dayGet k d = mapGet k.days d from rfl] at hday
          simp only [Keeper.add, dayGet, hday] at hq
          cases hq
        | some day =>
          rw [show dayGet k d = mapGet k.days d from rfl] at hday
          simp only [Keeper.add, dayGet, hday] at hq
          exact hwf (d, day) (mapGet_mem hday) q hq
    · exact hwf p hp
  · intro sel cs today now
    exact display_isSome k sel cs today now hwf
  · intro d today now
    have hd := fmtDay_eq_some k .noColor now d hwf
    exact rendererScale_isSome_of_display k (.Date d) today now _ hd
      (fmtDay_data_ne_nil k .noColor now d _ hd)
  · intro n today now
    obtain ⟨r, hr⟩ :=
      Option.isSome_iff_exists.mp (fmtRest_isSome k .noColor now hwf n (today + 1))
    have hfirst := fmtDay_eq_some k .noColor now today hwf
    have hd : display k (.Days (n + 1)) .noColor today now =
        some (fmtDayT k .noColor now today ++ r) := by
      simp [display, hfirst, hr]
    apply rendererScale_isSome_of_display k _ today now _ hd
    simp only [String.data_append]
    intro hc
    rcases List.append_eq_nil.mp hc with ⟨hc1, -⟩
    exact fmtDay_data_ne_nil k .noColor now today _ hfirst hc1

/-- Witness for C3 on `kOne`: the hypothesis `KeeperWF kOne` holds and
the layout succeeds on a single-date selection. -/
theorem C3_witness :
    KeeperWF kOne ∧ (rendererScale kOne (.Date 0) 0 0).isSome :=
  ⟨by decide, (C3_totality kOne (by decide)).2.2.1 0 0 0⟩

/-! ## Line-shape lemmas for the text renderer -/

theorem mem_of_head? {l : List Char} {c : Char} (h : l.head? = some c) :
    c ∈ l := by
  cases l with
  | nil => cases h
  | cons a l' =>
    cases h
    exact List.mem_cons_self _ _

theorem mem_of_getLast? {l : List Char} {c : Char} (h : l.getLast? = some c) :
    c ∈ l := by
  induction l with
  | nil => cases h
  | cons a l' ih =>
    cases l' with
    | nil => cases h; exact List.mem_cons_self _ _
    | cons b l'' =>
      rw [List.getLast?_cons_cons] at h
      exact List.mem_cons_of_mem _ (ih h)

theorem formatDate_head_ne_newline (d : NaiveDate) :
    (formatDate d).data.head? ≠ some '\n' := fun hc =>
  formatDate_no_newline d (mem_of_head? hc)

theorem formatDate_getLast_ne_newline (d : NaiveDate) :
    (formatDate d).data.getLast? ≠ some '\n' := fun hc =>
  formatDate_no_newline d (mem_of_getLast? hc)

/-- Each rendered task chunk is nonempty and does not end in a
newline (its last character is `)` or the final byte of the reset
escape). -/
theorem taskFmt_shape (green red reset : String)
    (hrst : reset = "" ∨ reset = RESET) (pd : Bool) (t : Task) :
    (taskFmt green red reset pd t).data ≠ [] ∧
    (taskFmt green red reset pd t).data.getLast? ≠ some '\n' := by
  unfold taskFmt
  set color := match t.completed, pd with
    | true, true => green
    | true, false => green
    | false, true => red
    | false, false => reset with hcolor
  have hX : (" " ++ color ++ "(" ++ reset ++ t.desc ++ color ++ ")").data =
      (" " ++ color ++ "(" ++ reset ++ t.desc ++ color).data ++ [')'] := by
    simp [String.data_append]
  rcases hrst with hrst | hrst
  · subst hrst
    rw [String.append_empty]
    constructor
    · rw [hX]
      intro hc
      rcases List.append_eq_nil.mp hc with ⟨-, hc2⟩
      cases hc2
    · rw [hX, List.getLast?_concat]
      decide
  · subst hrst
    constructor
    · rw [String.data_append]
      apply List.append_ne_nil_of_right_ne_nil
      decide
    · rw [String.data_append, getLast?_append_right _ _ (by decide)]
      decide

/-- Concatenating nonempty chunks that do not end in a newline yields a
string that does not end in a newline (and is nonempty when the list
is). -/
theorem strConcat_shape (L : List String)
    (hL : ∀ x ∈ L, x.data ≠ [] ∧ x.data.getLast? ≠ some '\n') :
    (strConcat L).data.getLast? ≠ some '\n' ∧
    (L ≠ [] → (strConcat L).data ≠ []) := by
  induction L with
  | nil => simp [strConcat]
  | cons s rest ih =>
    have hs := hL s (List.mem_cons_self _ _)
    have ih' := ih fun x hx => hL x (List.mem_cons_of_mem _ hx)
    simp only [strConcat, String.data_append]
    by_cases hr : rest = []
    · subst hr
      constructor
      · rw [show (strConcat []).data = [] from rfl, List.append_nil]
        exact hs.2
      · intro _
        rw [show (strConcat []).data = [] from rfl, List.append_nil]
        exact hs.1
    · have hrd : (strConcat rest).data ≠ [] := ih'.2 hr
      constructor
      · rw [getLast?_append_right _ _ hrd]
        exact ih'.1
      · intro _
        exact List.append_ne_nil_of_right_ne_nil _ hrd

/-- Each hour-slot line is a nonempty newline-free chunk followed by
exactly one newline. -/
theorem slotLine_shape (green red blue reset : String)
    (hrst : reset = "" ∨ reset = RESET) (d : NaiveDate) (now : Instant)
    (time : Nat) (tl : List Task) (line : String)
    (hline : slotLine green red blue reset d now time tl = some line) :
    ∃ w, line.data = w ++ ['\n'] ∧ w ≠ [] ∧ w.getLast? ≠ some '\n' := by
  simp only [slotLine, Option.map_eq_some'] at hline
  obtain ⟨pd, -, hline⟩ := hline
  subst hline
  set bracketColor := match tl.all fun t => t.completed, pd with
    | true, true => green
    | true, false => green
    | false, true => red
    | false, false => blue with hbc
  set P : String := bracketColor ++ "[" ++ natRepr time ++ "]" ++ reset with hP
  set M := tl.map (taskFmt green red reset pd) with hM
  refine ⟨(P ++ strConcat M).data, ?_, ?_, ?_⟩
  · simp [String.data_append]
  · simp only [String.data_append]
    intro hc
    rcases List.append_eq_nil.mp hc with ⟨hc1, -⟩
    rcases List.append_eq_nil.mp hc1 with ⟨hc2, -⟩
    rcases List.append_eq_nil.mp hc2 with ⟨-, hc3⟩
    cases hc3
  · have hP_last : P.data.getLast? ≠ some '\n' := by
      rw [hP]
      have hX : (bracketColor ++ "[" ++ natRepr time ++ "]").data =
          (bracketColor ++ "[" ++ natRepr time).data ++ [']'] := by
        simp [String.data_append]
      rcases hrst with hrst | hrst
      · subst hrst
        rw [String.append_empty, hX, List.getLast?_concat]
        decide
      · subst hrst
        rw [String.data_append, getLast?_append_right _ _ (by decide)]
        decide
    have hMfacts : ∀ x ∈ M, x.data ≠ [] ∧ x.data.getLast? ≠ some '\n' := by
      intro x hx
      rw [hM] at hx
      obtain ⟨t, -, hxt⟩ := List.mem_map.mp hx
      subst hxt
      exact taskFmt_shape green red reset hrst pd t
    by_cases hMnil : M = []
    · rw [hMnil]
      simp only [strConcat, String.append_empty]
      exact hP_last
    · have := strConcat_shape M hMfacts
      rw [String.data_append, getLast?_append_right _ _ (this.2 hMnil)]
      exact this.1

/-- The slot loop yields either the empty string (no slots) or a chunk
ending in exactly one newline. -/
theorem slotsFmt_shape (green red blue reset : String)
    (hrst : reset = "" ∨ reset = RESET) (d : NaiveDate) (now : Instant)
    (slots : List (Nat × List Task)) (body : String)
    (hbody : slotsFmt green red blue reset d now slots = some body) :
    body.data = [] ∨
    ∃ v, body.data = v ++ ['\n'] ∧ v ≠ [] ∧ v.getLast? ≠ some '\n' := by
  induction slots generalizing body with
  | nil =>
    simp only [slotsFmt, Option.some_inj] at hbody
    subst hbody
    exact Or.inl rfl
  | cons q rest ih =>
    obtain ⟨time, tl⟩ := q
    simp only [slotsFmt] at hbody
    obtain ⟨line, hline, hbody⟩ := Option.bind_eq_some.mp hbody
    obtain ⟨rest', hrest, hbody⟩ := Option.map_eq_some'.mp hbody
    subst hbody
    obtain ⟨w, hw, hwne, hwlast⟩ :=
      slotLine_shape green red blue reset hrst d now time tl line hline
    rcases ih rest' hrest with hr | ⟨v, hv, hvne, hvlast⟩
    · right
      refine ⟨w, ?_, hwne, hwlast⟩
      rw [String.data_append, hr, List.append_nil, hw]
    · right
      refine ⟨w ++ '\n' :: v, ?_, by simp, ?_⟩
      · rw [String.data_append, hw, hv]
        simp
      · rw [show w ++ '\n' :: v = w ++ ['\n'] ++ v by simp,
          getLast?_append_right _ _ hvne]
        exact hvlast

/-- The header-plus-body shape of one rendered day: a nonempty chunk
that neither starts nor ends with a newline, followed by exactly one
newline. -/
theorem headerBody_shape (d : NaiveDate) (body : String)
    (hbody : body.data = [] ∨
      ∃ v, body.data = v ++ ['\n'] ∧ v ≠ [] ∧ v.getLast? ≠ some '\n') :
    ∃ u, (formatDate d ++ "\n" ++ body).data = u ++ ['\n'] ∧ u ≠ [] ∧
      u.getLast? ≠ some '\n' ∧ u.head? ≠ some '\n' := by
  have hdata : (formatDate d ++ "\n" ++ body).data =
      ((formatDate d).data ++ ['\n']) ++ body.data := by
    simp [String.data_append]
  rcases hbody with hr | ⟨v, hv, hvne, hvlast⟩
  · refine ⟨(formatDate d).data, ?_, formatDate_data_ne_nil d,
      formatDate_getLast_ne_newline d, formatDate_head_ne_newline d⟩
    rw [hdata, hr, List.append_nil]
  · refine ⟨(formatDate d).data ++ '\n' :: v, ?_, by simp, ?_, ?_⟩
    · rw [hdata, hv]
      simp
    · rw [show (formatDate d).data ++ '\n' :: v =
          (formatDate d).data ++ ['\n'] ++ v by simp,
        getLast?_append_right _ _ hvne]
      exact hvlast
    · rw [head?_append_left _ _ (formatDate_data_ne_nil d)]
      exact formatDate_head_ne_newline d

/-- A rendered day always is a nonempty chunk that neither starts nor
ends with a newline, followed by exactly one newline. -/
theorem fmtDay_shape (k : Keeper) (cs : ColorStyle) (now : Instant)
    (d : NaiveDate) (s : String) (hs : fmtDay k cs now d = some s) :
    ∃ u, s.data = u ++ ['\n'] ∧ u ≠ [] ∧
      u.getLast? ≠ some '\n' ∧ u.head? ≠ some '\n' := by
  have hrst : ∀ green red blue reset, styleColors cs = (green, red, blue, reset) →
      reset = "" ∨ reset = RESET := by
    intro green red blue reset hsc
    cases cs <;>
    · simp [styleColors] at hsc
      rcases hsc with ⟨-, -, -, h4⟩
      first
      | exact Or.inl h4.symm
      | exact Or.inr h4.symm
  cases cs <;>
  · simp only [fmtDay, styleColors] at hs
    revert hs
    cases hday : dayGet k d with
    | none =>
      intro hs
      cases hs
      exact headerBody_shape d "Empty\n"
        (Or.inr ⟨['E', 'm', 'p', 't', 'y'], by decide, by decide, by decide⟩)
    | some day =>
      intro hs
      obtain ⟨body, hbody, hs⟩ := Option.map_eq_some'.mp hs
      subst hs
      exact headerBody_shape d body
        (slotsFmt_shape _ _ _ _ (hrst _ _ _ _ rfl) d now day.timeslots body hbody)

/-- No string of the form `u ++ "\n"` with `u` not ending in a newline
ends in two newlines. -/
theorem no_double_newline (u : List Char) (hu : u.getLast? ≠ some '\n') :
    ¬ (['\n', '\n'] <:+ u ++ ['\n']) := by
  rintro ⟨t, ht⟩
  rw [show t ++ ['\n', '\n'] = (t ++ ['\n']) ++ ['\n'] by simp] at ht
  have := List.append_cancel_right ht
  rw [← this, List.getLast?_concat] at hu
  exact hu rfl

/-! ## C8: multi-day concatenation -/

/-- The `Days` loop tail renders `"\n"` plus each further day, in
order. -/
theorem fmtRest_repr (k : Keeper) (cs : ColorStyle) (now : Instant)
    (hwf : KeeperWF k) : ∀ (n : Nat) (d : NaiveDate),
    fmtRest k cs now d n =
      some (strConcat ((List.range n).map fun i : Nat =>
        "\n" ++ fmtDayT k cs now (d + (i : Int)))) := by
  intro n
  induction n with
  | zero => intro d; rfl
  | succ n ih =>
    intro d
    simp only [fmtRest, fmtDay_eq_some k cs now d hwf, Option.some_bind,
      ih (d + 1), Option.map_some', Option.some_inj]
    rw [List.range_succ_eq_map, List.map_cons, List.map_map, strConcat]
    congr 1
    · simp
    · congr 1
      apply List.map_congr_left
      intro i _
      simp only [Function.comp]
      congr 2
      push_cast
      ring

/-- The rendered text of a positive day-count selection is the per-day
renderings joined with one extra newline between consecutive days. -/
theorem display_days_repr (k : Keeper) (cs : ColorStyle)
    (today : NaiveDate) (now : Instant) (hwf : KeeperWF k) (n : Nat) :
    display k (.Days (n + 1)) cs today now =
      some (joinSep "\n" ((List.range (n + 1)).map fun i : Nat =>
        fmtDayT k cs now (today + (i : Int)))) := by
  simp only [display, fmtDay_eq_some k cs now today hwf, Option.some_bind,
    fmtRest_repr k cs now hwf n (today + 1), Option.map_some', Option.some_inj]
  rw [List.range_succ_eq_map, List.map_cons, List.map_map, joinSep,
    List.map_map]
  congr 1
  · simp
  · congr 1
    apply List.map_congr_left
    intro i _
    simp only [Function.comp]
    congr 2
    push_cast
    ring

/-- Concatenating `"\n" ++ block` chunks, each block one-newline
terminated, yields either nothing or a chunk ending in exactly one
newline. -/
theorem tailJoin_shape (bs : List String)
    (hb : ∀ x ∈ bs, ∃ u, x.data = u ++ ['\n'] ∧ u ≠ [] ∧
      u.getLast? ≠ some '\n') :
    (strConcat (bs.map fun x => "\n" ++ x)).data = [] ∨
    ∃ w, (strConcat (bs.map fun x => "\n" ++ x)).data = w ++ ['\n'] ∧
      w ≠ [] ∧ w.getLast? ≠ some '\n' := by
  induction bs with
  | nil => exact Or.inl rfl
  | cons b rest ih =>
    obtain ⟨u, hu, hune, hulast⟩ := hb b (List.mem_cons_self _ _)
    rcases ih (fun x hx => hb x (List.mem_cons_of_mem _ hx)) with hR | ⟨w, hw, hwne, hwlast⟩
    · right
      refine ⟨'\n' :: u, ?_, by simp, ?_⟩
      · simp only [List.map_cons, strConcat, String.data_append, hR,
          List.append_nil, hu]
        simp
      · rw [show '\n' :: u = ['\n'] ++ u by simp,
          getLast?_append_right _ _ hune]
        exact hulast
    · right
      refine ⟨'\n' :: u ++ ['\n'] ++ w, ?_, by simp, ?_⟩
      · simp only [List.map_cons, strConcat, String.data_append, hw, hu]
        simp
      · rw [show '\n' :: u ++ ['\n'] ++ w = ('\n' :: u ++ ['\n']) ++ w by simp,
          getLast?_append_right _ _ hwne]
        exact hwlast

/-- The join of one-newline-terminated blocks neither starts with a
newline nor contains a trailing blank line. -/
theorem joinSep_shape (blocks : List String) (hne : blocks ≠ [])
    (hb : ∀ x ∈ blocks, ∃ u, x.data = u ++ ['\n'] ∧ u ≠ [] ∧
      u.getLast? ≠ some '\n' ∧ u.head? ≠ some '\n') :
    ∃ U, (joinSep "\n" blocks).data = U ++ ['\n'] ∧
      U.getLast? ≠ some '\n' ∧
      (joinSep "\n" blocks).data.head? ≠ some '\n' := by
  cases blocks with
  | nil => exact absurd rfl hne
  | cons b bs =>
    obtain ⟨u0, hu0, hu0ne, hu0last, hu0head⟩ := hb b (List.mem_cons_self _ _)
    have hbs : ∀ x ∈ bs, ∃ u, x.data = u ++ ['\n'] ∧ u ≠ [] ∧
        u.getLast? ≠ some '\n' := by
      intro x hx
      obtain ⟨u, h1, h2, h3, -⟩ := hb x (List.mem_cons_of_mem _ hx)
      exact ⟨u, h1, h2, h3⟩
    have hdata : (joinSep "\n" (b :: bs)).data =
        b.data ++ (strConcat (bs.map fun x => "\n" ++ x)).data := by
      simp [joinSep, String.data_append]
    rcases tailJoin_shape bs hbs with hT | ⟨w, hw, hwne, hwlast⟩
    · refine ⟨u0, ?_, hu0last, ?_⟩
      · rw [hdata, hT, List.append_nil, hu0]
      · rw [hdata, hT, List.append_nil, hu0,
          head?_append_left _ _ hu0ne]
        exact hu0head
    · refine ⟨u0 ++ ['\n'] ++ w, ?_, ?_, ?_⟩
      · rw [hdata, hw, hu0]
        simp
      · rw [getLast?_append_right _ _ hwne]
        exact hwlast
      · rw [hdata, hu0,
          head?_append_left _ _ (by simp),
          head?_append_left _ _ hu0ne]
        exact hu0head

/-- C8: a 0-day selection renders to the empty string; a 1-day
selection renders exactly as the single-date selection of today; and a
selection of `n ≥ 2` days renders as the per-day texts joined with a
single blank line between consecutive days (each day block ends in
exactly one newline), with no leading blank line and no trailing blank
line. -/
theorem C8_range_concatenation (k : Keeper) (cs : ColorStyle)
    (today : NaiveDate) (now : Instant) (hwf : KeeperWF k) :
    display k (.Days 0) cs today now = some "" ∧
    display k (.Days 1) cs today now = display k (.Date today) cs today now ∧
    (∀ n : Nat, 2 ≤ n → ∃ s,
      display k (.Days n) cs today now = some s ∧
      s = joinSep "\n" ((List.range n).map fun i : Nat =>
        fmtDayT k cs now (today + (i : Int))) ∧
      (∀ i : Nat, i < n → fmtDayT k cs now (today + (i : Int)) ≠ "" ∧
        (fmtDayT k cs now (today + (i : Int))).data.getLast? = some '\n') ∧
      s.data.head? ≠ some '\n' ∧
      ¬ (['\n', '\n'] <:+ s.data)) := by
  refine ⟨rfl, ?_, ?_⟩
  · cases hf : fmtDay k cs now today with
    | none => simp [display, fmtRest, hf]
    | some s => simp [display, fmtRest, hf, String.append_empty]
  · intro n hn
    obtain ⟨m, rfl⟩ : ∃ m, n = m + 1 := ⟨n - 1, by omega⟩
    have hblocks : ∀ x ∈ (List.range (m + 1)).map fun i : Nat =>
        fmtDayT k cs now (today + (i : Int)), ∃ u, x.data = u ++ ['\n'] ∧
        u ≠ [] ∧ u.getLast? ≠ some '\n' ∧ u.head? ≠ some '\n' := by
      intro x hx
      obtain ⟨i, -, hxi⟩ := List.mem_map.mp hx
      subst hxi
      exact fmtDay_shape k cs now _ _ (fmtDay_eq_some k cs now _ hwf)
    obtain ⟨U, hU, hUlast, hUhead⟩ := joinSep_shape _ (by simp) hblocks
    refine ⟨_, display_days_repr k cs today now hwf m, rfl, ?_, hUhead, ?_⟩
    · intro i _
      obtain ⟨u, hu, hune, -, -⟩ :=
        fmtDay_shape k cs now (today + (i : Int)) _
          (fmtDay_eq_some k cs now _ hwf)
      constructor
      · intro hc
        rw [hc] at hu
        exact absurd hu.symm (List.append_ne_nil_of_right_ne_nil _ (by simp))
      · rw [hu, List.getLast?_concat]
    · rw [hU]
      exact no_double_newline U hUlast

/-- Witness for C8 on `kOne` (today = date 0): the 0-day rendering is
empty, the 1-day rendering equals the single-date rendering, and the
2-day rendering has no trailing blank line. -/
theorem C8_witness :
    display kOne (.Days 0) .noColor 0 0 = some "" ∧
    display kOne (.Days 1) .noColor 0 0 = display kOne (.Date 0) .noColor 0 0 ∧
    ∃ s, display kOne (.Days 2) .noColor 0 0 = some s ∧
      ¬ (['\n', '\n'] <:+ s.data) := by
  obtain ⟨h1, h2, h3⟩ := C8_range_concatenation kOne .noColor 0 0 (by decide)
  obtain ⟨s, hs1, -, -, -, hs5⟩ := h3 2 (by decide)
  exact ⟨h1, h2, s, hs1, hs5⟩

/-! ## C9: the uniform font scale -/

/-- C9: whenever the plain-text rendering of the selection is `s` with
line count `H = (rustLines s).length` and longest-line length `L`, the
image renderer's font scale is uniform — both axes equal — and equals
`min(usable_height / H, usable_width / W)` with `W = L` divided by the
aspect-ratio constant, where the usable dimensions are the canvas
dimensions minus the fixed paddings (including the renderer's extra 20
horizontal pixels) and the top header offset. -/
theorem C9_font_scale (k : Keeper) (sel : ShowSet) (today : NaiveDate)
    (now : Instant) (s : String) (L : Nat)
    (hd : display k sel .noColor today now = some s)
    (hL : ((rustLines s).map fun l => l.utf8ByteSize).max? = some L) :
    rendererScale k sel today now = some
      { x := min (((SCREEN_HEIGHT : ℚ) - 2 * (Y_PAD : ℚ) - (Y_START : ℚ)) /
                ((rustLines s).length : ℚ))
              (((SCREEN_WIDTH : ℚ) - 2 * (X_PAD : ℚ) - 20) /
                ((L : ℚ) / charHeightToWidth)),
        y := min (((SCREEN_HEIGHT : ℚ) - 2 * (Y_PAD : ℚ) - (Y_START : ℚ)) /
                ((rustLines s).length : ℚ))
              (((SCREEN_WIDTH : ℚ) - 2 * (X_PAD : ℚ) - 20) /
                ((L : ℚ) / charHeightToWidth)) } := by
  simp [rendererScale, hd, hL]

/-- Witness for C9 on `kOne` with the single-date selection: the
rendered text is `"0\n[9] (buy milk)\n"`, with 2 lines and longest
line 14 bytes. -/
theorem C9_witness :
    rendererScale kOne (.Date 0) 0 0 = some
      { x := min (((SCREEN_HEIGHT : ℚ) - 2 * (Y_PAD : ℚ) - (Y_START : ℚ)) /
                ((rustLines "0\n[9] (buy milk)\n").length : ℚ))
              (((SCREEN_WIDTH : ℚ) - 2 * (X_PAD : ℚ) - 20) /
                ((14 : ℚ) / charHeightToWidth)),
        y := min (((SCREEN_HEIGHT : ℚ) - 2 * (Y_PAD : ℚ) - (Y_START : ℚ)) /
                ((rustLines "0\n[9] (buy milk)\n").length : ℚ))
              (((SCREEN_WIDTH : ℚ) - 2 * (X_PAD : ℚ) - 20) /
                ((14 : ℚ) / charHeightToWidth)) } :=
  C9_font_scale kOne (.Date 0) 0 0 "0\n[9] (buy milk)\n" 14 (by rfl) (by rfl)

/-! ## C6 and C7: the normalization pass `Keeper::order` -/

theorem taskLE_trans : ∀ a b c : Task,
    taskLE a b = true → taskLE b c = true → taskLE a c = true := by
  intro a b c
  obtain ⟨ab, _⟩ := a
  obtain ⟨bb, _⟩ := b
  obtain ⟨cb, _⟩ := c
  cases ab <;> cases bb <;> cases cb <;> simp [taskLE]

theorem taskLE_total : ∀ a b : Task, (taskLE a b || taskLE b a) = true := by
  intro a b
  obtain ⟨ab, _⟩ := a
  obtain ⟨bb, _⟩ := b
  cases ab <;> cases bb <;> simp [taskLE]

theorem orderSlot_idem (l : List Task) : orderSlot (orderSlot l) = orderSlot l :=
  List.mergeSort_of_sorted (List.sorted_mergeSort taskLE_trans taskLE_total l)

theorem orderSchedule_idem (s : Schedule) :
    orderSchedule (orderSchedule s) = orderSchedule s := by
  simp only [orderSchedule, List.map_map, Schedule.mk.injEq]
  apply List.map_congr_left
  intro q _
  simp [Function.comp, orderSlot_idem]

/-- `order` maps every slot through `orderSlot` and changes nothing
else. -/
theorem slotGet_order (k : Keeper) (d : NaiveDate) (h : Nat) :
    slotGet (Keeper.order k) d h = (slotGet k d h).map orderSlot := by
  simp only [slotGet, dayGet, Keeper.order, mapGet_map]
  cases hday : mapGet k.days d with
  | none => simp
  | some day => simp [orderSchedule, mapGet_map]

/-- Stability of `orderSlot` for a completion class: tasks of equal
completion status keep their relative order. -/
theorem orderSlot_filter_key (l : List Task) (b : Bool) :
    (orderSlot l).filter (fun t => t.completed == b) =
      l.filter (fun t => t.completed == b) := by
  set p : Task → Bool := fun t => t.completed == b with hp
  have pw : List.Pairwise (fun a c => taskLE a c = true) (l.filter p) := by
    apply List.pairwise_of_forall_mem_list
    intro a ha c hc
    have hpa : p a := List.of_mem_filter ha
    have hpc : p c := List.of_mem_filter hc
    simp only [hp, beq_iff_eq] at hpa hpc
    cases b <;> simp [taskLE, hpa, hpc]
  have hsub : (l.filter p).Sublist (orderSlot l) :=
    List.sublist_mergeSort taskLE_trans taskLE_total pw (List.filter_sublist l)
  have hsub2 : (l.filter p).Sublist ((orderSlot l).filter p) := by
    have hff := List.Sublist.filter p hsub
    rw [List.filter_filter] at hff
    simpa [Bool.and_self] using hff
  have hlen : ((orderSlot l).filter p).length = (l.filter p).length :=
    ((List.mergeSort_perm l taskLE).filter p).length_eq
  exact (hsub2.eq_of_length hlen.symm).symm

/-- A list sorted under `taskLE` is its incomplete part followed by its
complete part. -/
theorem pairwise_taskLE_eq_append (s : List Task)
    (hs : List.Pairwise (fun a c => taskLE a c = true) s) :
    s = s.filter (fun t => !t.completed) ++ s.filter (fun t => t.completed) := by
  induction s with
  | nil => rfl
  | cons t s' ih =>
    have hrel : ∀ u ∈ s', taskLE t u = true := fun u hu =>
      List.rel_of_pairwise_cons hs hu
    have ih' := ih hs.tail
    cases hc : t.completed with
    | false =>
      simp only [List.filter_cons, hc, Bool.not_false, if_pos, Bool.false_eq_true,
        if_neg]
      simpa using ih'
    | true =>
      have hall : ∀ u ∈ s', u.completed = true := by
        intro u hu
        have := hrel u hu
        simpa [taskLE, hc] using this
      have hnil : s'.filter (fun t => !t.completed) = [] := by
        rw [List.filter_eq_nil_iff]
        intro u hu
        simp [hall u hu]
      have hself : s'.filter (fun t => t.completed) = s' := by
        rw [List.filter_eq_self]
        intro u hu
        simp [hall u hu]
      simp [List.filter_cons, hc, hnil, hself]

/-- The closed form of `orderSlot`: the incomplete tasks in order,
then the complete tasks in order. -/
theorem orderSlot_eq_append (l : List Task) :
    orderSlot l = l.filter (fun t => !t.completed) ++ l.filter (fun t => t.completed) := by
  have hs := List.sorted_mergeSort taskLE_trans taskLE_total l
  have hdec := pairwise_taskLE_eq_append (orderSlot l) hs
  have e0 : ∀ m : List Task,
      m.filter (fun t => !t.completed) = m.filter (fun t => t.completed == false) := by
    intro m
    apply List.filter_congr
    intro a _
    cases hca : a.completed <;> simp [hca]
  have e1 : ∀ m : List Task,
      m.filter (fun t => t.completed) = m.filter (fun t => t.completed == true) := by
    intro m
    apply List.filter_congr
    intro a _
    cases hca : a.completed <;> simp [hca]
  have h0 : (orderSlot l).filter (fun t => !t.completed) =
      l.filter (fun t => !t.completed) := by
    rw [e0 (orderSlot l), e0 l]
    exact orderSlot_filter_key l false
  have h1 : (orderSlot l).filter (fun t => t.completed) =
      l.filter (fun t => t.completed) := by
    rw [e1 (orderSlot l), e1 l]
    exact orderSlot_filter_key l true
  rw [hdec, h0, h1]

/-- C6: after `Keeper::order`, within every hour-slot of every day,
adjacent tasks satisfy `a.completed ≤ b.completed` (incomplete before
complete), and each completion class keeps its pre-normalization
relative order (the sort is stable). -/
theorem C6_completion_ordering (k : Keeper) (d : NaiveDate) (h : Nat)
    (l l' : List Task) (hl : slotGet k d h = some l)
    (hl' : slotGet (Keeper.order k) d h = some l') :
    List.Chain' (fun a b => a.completed ≤ b.completed) l' ∧
    ∀ b : Bool, l'.filter (fun t => t.completed == b) =
      l.filter (fun t => t.completed == b) := by
  have hord : l' = orderSlot l := by
    rw [slotGet_order, hl] at hl'
    simpa using hl'.symm
  subst hord
  constructor
  · have hpw := List.sorted_mergeSort taskLE_trans taskLE_total l
    have : List.Pairwise (fun a b : Task => a.completed ≤ b.completed)
        (orderSlot l) := by
      apply hpw.imp
      intro a b hab
      simp only [taskLE, Bool.or_eq_true, Bool.not_eq_eq_eq_not] at hab
      rcases hab with hab | hab
      · simp [Bool.le_iff_imp]
        intro hcon
        simp_all
      · simp [hab, Bool.le_true]
    exact this.chain'
  · exact fun b => orderSlot_filter_key l b

/-- C7: the normalization pass is idempotent. -/
theorem C7_normalize_idempotent (k : Keeper) :
    Keeper.order (Keeper.order k) = Keeper.order k := by
  simp only [Keeper.order, List.map_map, Keeper.mk.injEq]
  apply List.map_congr_left
  intro p _
  simp [Function.comp, orderSchedule_idem]

/-- Witness for C6 on `kMixed`: incomplete `b`, `d` move before
complete `a`, `c`, each class in original order. -/
theorem C6_witness :
    List.Chain' (fun a b : Task => a.completed ≤ b.completed)
      [⟨false, "b"⟩, ⟨false, "d"⟩, ⟨true, "a"⟩, ⟨true, "c"⟩] ∧
    ∀ b : Bool,
      List.filter (fun t : Task => t.completed == b)
          [⟨false, "b"⟩, ⟨false, "d"⟩, ⟨true, "a"⟩, ⟨true, "c"⟩] =
        List.filter (fun t : Task => t.completed == b)
          [⟨true, "a"⟩, ⟨false, "b"⟩, ⟨true, "c"⟩, ⟨false, "d"⟩] :=
  C6_completion_ordering kMixed 0 9
    [⟨true, "a"⟩, ⟨false, "b"⟩, ⟨true, "c"⟩, ⟨false, "d"⟩]
    [⟨false, "b"⟩, ⟨false, "d"⟩, ⟨true, "a"⟩, ⟨true, "c"⟩]
    (by rfl)
    (by
      rw [slotGet_order,
        show slotGet kMixed 0 9 =
          some [⟨true, "a"⟩, ⟨false, "b"⟩, ⟨true, "c"⟩, ⟨false, "d"⟩] from rfl]
      show some (orderSlot _) = _
      rw [orderSlot_eq_append]
      decide)

/-! ## C5: successful `change` (move) semantics -/

/-- C5: when the task at `(d, old_hour, index)` exists, `change`
succeeds, removes that task from the old slot and appends it — flag
and description intact — at the end of the new slot; if the removal
empties the old slot, the old hour key is gone from the schedule
(lookup yields `none`, not an empty list). -/
theorem C5_move_semantics (k : Keeper) (d : NaiveDate) (oh i nh : Nat)
    (l : List Task) (hl : slotGet k d oh = some l) (hi : i < l.length) :
    ∃ k', Keeper.change k d oh i nh = .ok k' ∧
      slotGet k' d nh =
        some ((if nh = oh then l.eraseIdx i else (slotGet k d nh).getD []) ++ [l[i]]) ∧
      (nh ≠ oh → l.eraseIdx i = [] → slotGet k' d oh = none) ∧
      (nh ≠ oh → l.eraseIdx i ≠ [] → slotGet k' d oh = some (l.eraseIdx i)) := by
  obtain ⟨day, hday, hslot⟩ := Option.bind_eq_some.mp hl
  have hday' : mapGet k.days d = some day := hday
  have hlen : ¬ i > l.length := by omega
  have htask : l[i]? = some l[i] := List.getElem?_eq_getElem hi
  simp only [Keeper.change, dayGet, hday', hslot, if_neg hlen, htask]
  refine ⟨_, rfl, ?_, ?_, ?_⟩
  · simp only [slotGet, dayGet, mapGet_insert_self, Option.some_bind, hday']
    by_cases hnh : nh = oh
    · subst hnh
      by_cases hemp : (l.eraseIdx i).isEmpty
      · simp [hemp, mapGet_remove_self, List.isEmpty_iff.mp hemp]
      · simp [hemp, mapGet_insert_self]
    · simp only [if_neg hnh]
      by_cases hemp : (l.eraseIdx i).isEmpty
      · rw [if_pos hemp, mapGet_remove_ne _ _ _ (fun hcon => hnh hcon)]
      · rw [if_neg hemp, mapGet_insert_ne _ _ _ _ (fun hcon => hnh hcon)]
  · intro hne hempty
    have hemp : (l.eraseIdx i).isEmpty := List.isEmpty_iff.mpr hempty
    simp only [slotGet, dayGet, mapGet_insert_self, Option.some_bind, hemp, if_pos]
    rw [mapGet_insert_ne _ _ _ _ (fun hcon => hne hcon.symm)]
    exact mapGet_remove_self _ _
  · intro hne hnonempty
    have hemp : ¬ (l.eraseIdx i).isEmpty := by
      simpa [List.isEmpty_iff] using hnonempty
    simp only [slotGet, dayGet, mapGet_insert_self, Option.some_bind, hemp,
      Bool.false_eq_true, if_neg]
    rw [mapGet_insert_ne _ _ _ _ (fun hcon => hne hcon.symm)]
    exact mapGet_insert_self _ _ _

/-- Witness for C5 on `kOne`: moving the only task of hour `9` to hour
`10` succeeds and removes the hour-`9` key entirely. -/
theorem C5_witness :
    ∃ k', Keeper.change kOne 0 9 0 10 = .ok k' ∧ slotGet k' 0 9 = none := by
  obtain ⟨k', hok, _, h3, _⟩ :=
    C5_move_semantics kOne 0 9 0 10 [⟨false, "buy milk"⟩] rfl (by decide)
  exact ⟨k', hok, h3 (by decide) (by decide)⟩

/-- Witness for C10 on `kOne`: adding at date `0` leaves date `1` and
hour `8` unchanged. -/
theorem C10_witness :
    dayGet (Keeper.add kOne 0 "eat" 9) 1 = dayGet kOne 1 ∧
    slotGet (Keeper.add kOne 0 "eat" 9) 0 8 = slotGet kOne 0 8 :=
  ⟨(C10_frame_locality kOne 0).1 "eat" 9 1 (by decide),
   (C10_frame_locality kOne 0).2.1 "eat" 9 8 (by decide)⟩

end KeeperTodo
